import Mathlib

/-!
Verification of the `txvotepool` gossip reactor (`txvotepool/reactor.go`).

The development shallowly embeds the reactor's peer-identifier registry
(`txpoolIDs` with `ReserveForPeer` / `nextPeerID` / `Reclaim` / `GetForPeer`),
the wire-codec size guard (`decodeMsg`), one iteration of the per-peer
broadcast loop (`broadcastTxRoutine`), and the inbound handler (`Receive`).
Machine integers are modelled as `Nat` with explicit `% 2^16` where the Go
code's `uint16` arithmetic wraps; Go maps become association lists
(`peerMap`) and `Finset ℕ` (`activeIDs`); a Go `panic` becomes `none`.
External collaborators (the amino codec, the pool's `CheckTxWithInfo`, peer
transport) are parameters of the functions that call them, mirroring the
reactor's dependency boundary.
-/

namespace Txvotepool

/-- `p2p.ID`: opaque peer connection identity (modelled as a number). -/
abbrev PeerId := ℕ

/-- `types.TxVote`: opaque transaction payload. -/
abbrev TxVote := ℕ

/-- `TxpoolChannel = byte(0x31)`. -/
def TxpoolChannel : ℕ := 0x31

/-- `maxMsgSize = 1048576`. -/
def maxMsgSize : ℕ := 1048576

/-- `maxTxSize = maxMsgSize - 8`. -/
def maxTxSize : ℕ := maxMsgSize - 8

/-- `UnknownPeerID uint16 = 0`. -/
def UnknownPeerID : ℕ := 0

/-- `maxActiveIDs = math.MaxUint16`. -/
def maxActiveIDs : ℕ := 65535

/-- Number of distinct `uint16` values; `uint16` increments wrap modulo this. -/
def uint16Card : ℕ := 65536

/-! ### Go-map operations on association lists -/

/-- Go map lookup `m[k]` (as an `Option`). -/
def lookupMap (k : PeerId) : List (PeerId × ℕ) → Option ℕ
  | [] => none
  | (k', v) :: rest => if k' = k then some v else lookupMap k rest

/-- Go `delete(m, k)`. -/
def eraseMap (k : PeerId) (m : List (PeerId × ℕ)) : List (PeerId × ℕ) :=
  m.filter (fun e => e.1 ≠ k)

/-- Go map assignment `m[k] = v` (overwrites any previous binding). -/
def insertMap (k : PeerId) (v : ℕ) (m : List (PeerId × ℕ)) : List (PeerId × ℕ) :=
  (k, v) :: eraseMap k m

/-- The keys of a peer map. -/
def mapKeys (m : List (PeerId × ℕ)) : List PeerId := m.map Prod.fst

/-- The values of a peer map, as a list. -/
def mapVals (m : List (PeerId × ℕ)) : List ℕ := m.map Prod.snd

/-- The image of a peer map, as a finite set. -/
def mapImage (m : List (PeerId × ℕ)) : Finset ℕ := (mapVals m).toFinset

/-! ### The peer-identifier registry (`txpoolIDs`) -/

/-- The state of the registry: `peerMap`, the `uint16` allocation cursor
`nextID`, and the allocated-ID set `activeIDs`. -/
structure txpoolIDs where
  peerMap : List (PeerId × ℕ)
  nextID : ℕ
  activeIDs : Finset ℕ
deriving DecidableEq

/-- The linear probe inside `nextPeerID`: starting at `start`, advance
(with `uint16` wraparound, i.e. `ids.nextID++`) while the current value is
in `activeIDs`; return the first free value. The Go loop has no fuel — it
is run with fuel `uint16Card`, which suffices whenever a free `uint16`
value exists. -/
def probe (active : Finset ℕ) : ℕ → ℕ → Option ℕ
  | _, 0 => none
  | start, fuel + 1 =>
    if start ∈ active then probe active ((start + 1) % uint16Card) fuel
    else some start

/-- `nextPeerID`: panics (`none`) when `len(activeIDs) == maxActiveIDs`;
otherwise probes from the cursor and returns the allocated ID together with
the post-increment cursor value. -/
def nextPeerID (ids : txpoolIDs) : Option (ℕ × ℕ) :=
  if ids.activeIDs.card = maxActiveIDs then none
  else
    match probe ids.activeIDs ids.nextID uint16Card with
    | none => none
    | some cur => some (cur, (cur + 1) % uint16Card)

/-- `ReserveForPeer`: allocate via `nextPeerID`, record the peer→ID mapping,
mark the ID active. `none` models the panic propagating out. -/
def ReserveForPeer (peer : PeerId) (ids : txpoolIDs) : Option txpoolIDs :=
  match nextPeerID ids with
  | none => none
  | some (curID, n) =>
    some { peerMap := insertMap peer curID ids.peerMap
           nextID := n
           activeIDs := insert curID ids.activeIDs }

/-- `Reclaim`: if the peer has a mapping, delete the mapped ID from
`activeIDs` and the peer from `peerMap`; otherwise do nothing. -/
def Reclaim (peer : PeerId) (ids : txpoolIDs) : txpoolIDs :=
  match lookupMap peer ids.peerMap with
  | none => ids
  | some removedID =>
    { peerMap := eraseMap peer ids.peerMap
      nextID := ids.nextID
      activeIDs := ids.activeIDs.erase removedID }

/-- `GetForPeer`: Go map read, returning the zero value for an unmapped peer. -/
def GetForPeer (peer : PeerId) (ids : txpoolIDs) : ℕ :=
  (lookupMap peer ids.peerMap).getD 0

/-- `newTxpoolIDs`: empty map, cursor `1`, `activeIDs = {0}` (ID 0 reserved). -/
def newTxpoolIDs : txpoolIDs :=
  { peerMap := [], nextID := 1, activeIDs := {0} }

/-! ### Registry invariants -/

/-- Facts holding in every state reachable by any sequence of
`ReserveForPeer` / `Reclaim` calls from `newTxpoolIDs`: keys and values of
`peerMap` are duplicate-free, every mapped value is active and non-zero,
`0` is active, all active IDs and the cursor fit in a `uint16`, and at most
`maxActiveIDs` IDs are active. -/
def InvBasic (ids : txpoolIDs) : Prop :=
  (mapKeys ids.peerMap).Nodup ∧
  (mapVals ids.peerMap).Nodup ∧
  (∀ v ∈ mapVals ids.peerMap, v ∈ ids.activeIDs) ∧
  (0 : ℕ) ∈ ids.activeIDs ∧
  (∀ v ∈ mapVals ids.peerMap, v ≠ 0) ∧
  (∀ a ∈ ids.activeIDs, a < uint16Card) ∧
  ids.nextID < uint16Card ∧
  ids.activeIDs.card ≤ maxActiveIDs

instance (ids : txpoolIDs) : Decidable (InvBasic ids) := by
  unfold InvBasic; infer_instance

/-- `InvBasic` plus: the active set is exactly the image of the map
together with the reserved `0`. Holds for call sequences that reserve only
currently-unmapped peers. -/
def InvFull (ids : txpoolIDs) : Prop :=
  InvBasic ids ∧ ids.activeIDs = mapImage ids.peerMap ∪ {0}

instance (ids : txpoolIDs) : Decidable (InvFull ids) := by
  unfold InvFull; infer_instance

/-! ### Call sequences against the registry -/

/-- One registry call: `ReserveForPeer` or `Reclaim`. -/
inductive Op where
  | reserve (p : PeerId)
  | reclaim (p : PeerId)
deriving DecidableEq

/-- Apply one call; `none` models the `nextPeerID` panic aborting the run. -/
def applyOp (ids : txpoolIDs) : Op → Option txpoolIDs
  | .reserve p => ReserveForPeer p ids
  | .reclaim p => some (Reclaim p ids)

/-- Apply a sequence of calls. -/
def applyOps : List Op → txpoolIDs → Option txpoolIDs
  | [], ids => some ids
  | o :: rest, ids =>
    match applyOp ids o with
    | none => none
    | some ids' => applyOps rest ids'

/-- Apply a sequence of calls, also recording, for each successful
reservation, the allocated ID together with whether that ID was already
active at the moment of allocation. -/
def applyOpsTrace : List Op → txpoolIDs → Option (txpoolIDs × List (ℕ × Bool))
  | [], ids => some (ids, [])
  | Op.reserve p :: rest, ids =>
    match nextPeerID ids with
    | none => none
    | some (curID, n) =>
      match applyOpsTrace rest
          { peerMap := insertMap p curID ids.peerMap
            nextID := n
            activeIDs := insert curID ids.activeIDs } with
      | none => none
      | some (st, evs) => some (st, (curID, decide (curID ∈ ids.activeIDs)) :: evs)
  | Op.reclaim p :: rest, ids => applyOpsTrace rest (Reclaim p ids)

/-- A call sequence is good when every `reserve` targets a peer with no
current mapping — the spec's "called at most once per connected peer"
precondition. -/
def goodOps : List Op → txpoolIDs → Bool
  | [], _ => true
  | Op.reserve p :: rest, ids =>
    (lookupMap p ids.peerMap).isNone &&
      (match ReserveForPeer p ids with
       | none => true
       | some ids' => goodOps rest ids')
  | Op.reclaim p :: rest, ids => goodOps rest (Reclaim p ids)

/-! ### Wire codec (`decodeMsg`) -/

/-- The decoded message sum: the single registered `TxMessage` variant,
plus the `default` arm of the `Receive` type switch (an unrecognized but
successfully decoded message). -/
inductive TxpoolMessage where
  | txMessage (Tx : TxVote)
  | unknownMsg
deriving DecidableEq

/-- Decode failures: the reactor's own size guard
(`"Msg exceeds max size (%d > %d)"`), or an opaque failure from the
external `cdc.UnmarshalBinaryBare`. -/
inductive DecodeErr where
  | msgExceedsMaxSize (len max : ℕ)
  | unmarshalErr (e : ℕ)
deriving DecidableEq

/-- `decodeMsg`: reject frames longer than `maxMsgSize` before any content
inspection, else hand the bytes to the (external) amino unmarshaller. -/
def decodeMsg (unmarshal : List ℕ → Except DecodeErr TxpoolMessage)
    (bz : List ℕ) : Except DecodeErr TxpoolMessage :=
  if maxMsgSize < bz.length then .error (.msgExceedsMaxSize bz.length maxMsgSize)
  else unmarshal bz

/-! ### Per-peer broadcast loop (`broadcastTxRoutine`), one iteration -/

/-- The data one loop iteration consults: the peer's reported height
(`none` when `peer.Get(PeerStateKey)` has no state yet), the entry's
height, whether the entry's sender set contains this peer's ID, and the
result of the non-blocking `peer.Send`. Heights are Go `int64`, modelled
as `ℤ`. -/
structure LoopInput where
  peerHeight : Option ℤ
  entryHeight : ℤ
  peerIsSender : Bool
  sendOk : Bool
deriving DecidableEq

/-- What one loop iteration does with the current entry. -/
inductive StepResult where
  /-- No peer state yet: sleep the catch-up interval, retry the same entry. -/
  | retryNoState
  /-- Peer lags by more than one block: sleep, retry the same entry. -/
  | retryBehind
  /-- Peer is in the sender set: skip the send, advance the cursor. -/
  | advanceNoSend
  /-- Entry sent, cursor advanced. -/
  | advanceSent
  /-- `peer.Send` returned `false`: sleep, retry the same entry. -/
  | retrySendFailed
deriving DecidableEq

/-- One iteration of the broadcast loop body (lines 215–252 of
`reactor.go`), after the running/quit checks. -/
def loopStep (i : LoopInput) : StepResult :=
  match i.peerHeight with
  | none => .retryNoState
  | some h =>
    if h < i.entryHeight - 1 then .retryBehind
    else if i.peerIsSender then .advanceNoSend
    else if i.sendOk then .advanceSent
    else .retrySendFailed

/-- Whether an iteration transmitted the entry to the peer. -/
def sends : StepResult → Bool
  | .advanceSent => true
  | _ => false

/-- Whether an iteration advanced the cursor past the entry. -/
def advances : StepResult → Bool
  | .advanceSent => true
  | .advanceNoSend => true
  | _ => false

/-! ### The reactor (`TxpoolReactor`) -/

/-- Reactor state: the `config.Broadcast` flag and the registry. -/
structure TxpoolReactor where
  broadcast : Bool
  ids : txpoolIDs
deriving DecidableEq

/-- The externally visible effects of one `Receive` call:
`Switch.StopPeerForError` (with its cause) and `Txpool.CheckTxWithInfo`
(with the submitted transaction, the provenance PeerID, and the pool's
verdict, which the reactor only logs). -/
structure ReceiveEffect where
  stoppedPeer : Option DecodeErr
  checkedTx : Option (TxVote × ℕ × Bool)
deriving DecidableEq

/-- `Receive`: decode; on failure stop the peer with the error as cause;
on a `TxMessage` look up the sender's ID and submit with that provenance
(the pool verdict is only logged); on an unknown message only log. -/
def Receive (txR : TxpoolReactor)
    (unmarshal : List ℕ → Except DecodeErr TxpoolMessage)
    (checkTx : TxVote → ℕ → Bool) (src : PeerId) (msgBytes : List ℕ) :
    ReceiveEffect × TxpoolReactor :=
  match decodeMsg unmarshal msgBytes with
  | .error err => (⟨some err, none⟩, txR)
  | .ok (.txMessage tx) =>
    (⟨none, some (tx, GetForPeer src txR.ids, checkTx tx (GetForPeer src txR.ids))⟩, txR)
  | .ok .unknownMsg => (⟨none, none⟩, txR)

/-- `AddPeer`: reserve an ID for the peer (and start its broadcast
routine). `none` models the reservation panic. -/
def AddPeer (txR : TxpoolReactor) (peer : PeerId) : Option TxpoolReactor :=
  (ReserveForPeer peer txR.ids).map fun ids' => { txR with ids := ids' }

/-- `RemovePeer`: reclaim the peer's ID. -/
def RemovePeer (txR : TxpoolReactor) (peer : PeerId) : TxpoolReactor :=
  { txR with ids := Reclaim peer txR.ids }

/-- The broadcast routine, abstracted to the iterations it performs: with
`config.Broadcast` unset it returns on entry and performs none; otherwise
it runs one `loopStep` per supplied iteration input. -/
def broadcastTxRoutine (txR : TxpoolReactor) (iters : List LoopInput) :
    List StepResult :=
  if !txR.broadcast then [] else iters.map loopStep

/-! ## Lemmas about the map operations -/

theorem lookupMap_insertMap_self (k : PeerId) (v : ℕ) (m : List (PeerId × ℕ)) :
    lookupMap k (insertMap k v m) = some v := by
  simp [insertMap, lookupMap]

theorem mem_eraseMap {e : PeerId × ℕ} {k : PeerId} {m : List (PeerId × ℕ)} :
    e ∈ eraseMap k m ↔ e ∈ m ∧ e.1 ≠ k := by
  simp [eraseMap, List.mem_filter]

theorem eraseMap_sublist (k : PeerId) (m : List (PeerId × ℕ)) :
    (eraseMap k m).Sublist m :=
  List.filter_sublist m

theorem eraseMap_cons (k k' : PeerId) (v : ℕ) (rest : List (PeerId × ℕ)) :
    eraseMap k ((k', v) :: rest)
      = if k' = k then eraseMap k rest else (k', v) :: eraseMap k rest := by
  simp only [eraseMap, List.filter_cons]
  by_cases h : k' = k <;> simp [h]

theorem lookupMap_eraseMap_ne {q p : PeerId} (h : q ≠ p) (m : List (PeerId × ℕ)) :
    lookupMap q (eraseMap p m) = lookupMap q m := by
  induction m with
  | nil => rfl
  | cons e rest ih =>
    obtain ⟨k', v⟩ := e
    rw [eraseMap_cons]
    by_cases hk : k' = p
    · rw [if_pos hk, ih]
      have hq : k' ≠ q := fun hh => h (hh ▸ hk)
      simp [lookupMap, hq]
    · rw [if_neg hk]
      by_cases hq : k' = q
      · simp [lookupMap, hq]
      · simp [lookupMap, hq, ih]

theorem lookupMap_mem {k : PeerId} {v : ℕ} :
    ∀ {m : List (PeerId × ℕ)}, lookupMap k m = some v → (k, v) ∈ m := by
  intro m
  induction m with
  | nil => intro h; simp [lookupMap] at h
  | cons e rest ih =>
    intro h
    obtain ⟨k', v'⟩ := e
    by_cases hk : k' = k
    · subst hk
      have h' : v' = v := by simpa [lookupMap] using h
      subst h'
      exact List.mem_cons_self _ _
    · simp only [lookupMap, if_neg hk] at h
      exact List.mem_cons_of_mem _ (ih h)

theorem lookupMap_eq_none_iff {k : PeerId} {m : List (PeerId × ℕ)} :
    lookupMap k m = none ↔ k ∉ mapKeys m := by
  induction m with
  | nil => simp [lookupMap, mapKeys]
  | cons e rest ih =>
    obtain ⟨k', v'⟩ := e
    by_cases hk : k' = k
    · subst hk
      simp [lookupMap, mapKeys]
    · have hk' : ¬ k = k' := fun hh => hk hh.symm
      simp [lookupMap, mapKeys, hk, hk', ih]

theorem eraseMap_eq_self_of_none {k : PeerId} :
    ∀ {m : List (PeerId × ℕ)}, lookupMap k m = none → eraseMap k m = m := by
  intro m
  induction m with
  | nil => intro _; rfl
  | cons e rest ih =>
    intro h
    obtain ⟨k', v'⟩ := e
    have hk : k' ≠ k := by
      intro hh
      rw [hh] at h
      simp [lookupMap] at h
    have hrest : lookupMap k rest = none := by
      simpa [lookupMap, hk] using h
    rw [eraseMap_cons, if_neg hk, ih hrest]

theorem mem_mapVals {v : ℕ} {m : List (PeerId × ℕ)} :
    v ∈ mapVals m ↔ ∃ k, (k, v) ∈ m := by
  constructor
  · intro h
    obtain ⟨⟨k, v'⟩, hm, hv⟩ := List.mem_map.mp h
    cases hv
    exact ⟨k, hm⟩
  · rintro ⟨k, hk⟩
    exact List.mem_map.mpr ⟨(k, v), hk, rfl⟩

theorem mapVals_eraseMap_sublist (k : PeerId) (m : List (PeerId × ℕ)) :
    (mapVals (eraseMap k m)).Sublist (mapVals m) :=
  (eraseMap_sublist k m).map Prod.snd

/-- Two map entries with equal values are equal when the values are
duplicate-free. -/
theorem entry_eq_of_valsNodup {m : List (PeerId × ℕ)}
    (h : (mapVals m).Nodup) {e e' : PeerId × ℕ}
    (he : e ∈ m) (he' : e' ∈ m) (hv : e.2 = e'.2) : e = e' :=
  List.inj_on_of_nodup_map h he he' hv

/-- Two map entries with equal keys are equal when the keys are
duplicate-free. -/
theorem entry_eq_of_keysNodup {m : List (PeerId × ℕ)}
    (h : (mapKeys m).Nodup) {e e' : PeerId × ℕ}
    (he : e ∈ m) (he' : e' ∈ m) (hv : e.1 = e'.1) : e = e' :=
  List.inj_on_of_nodup_map h he he' hv

/-! ## Lemmas about the allocation probe -/

theorem probe_some {active : Finset ℕ} :
    ∀ {fuel s r : ℕ}, s < uint16Card → probe active s fuel = some r →
      r < uint16Card ∧ r ∉ active := by
  intro fuel
  induction fuel with
  | zero => intro s r _ h; simp [probe] at h
  | succ f ih =>
    intro s r hs h
    by_cases hm : s ∈ active
    · simp only [probe, if_pos hm] at h
      exact ih (Nat.mod_lt _ (by simp [uint16Card])) h
    · simp only [probe, if_neg hm] at h
      obtain rfl : s = r := by simpa using h
      exact ⟨hs, hm⟩

theorem probe_eq_of_least {active : Finset ℕ} :
    ∀ (d s fuel : ℕ), s < uint16Card → d < fuel →
      (s + d) % uint16Card ∉ active →
      (∀ k < d, (s + k) % uint16Card ∈ active) →
      probe active s fuel = some ((s + d) % uint16Card) := by
  intro d
  induction d with
  | zero =>
    intro s fuel hs hfuel hfree _
    obtain ⟨f, rfl⟩ := Nat.exists_eq_succ_of_ne_zero (Nat.pos_iff_ne_zero.mp hfuel)
    have hsm : (s + 0) % uint16Card = s := by
      simpa using Nat.mod_eq_of_lt hs
    rw [hsm] at hfree ⊢
    simp [probe, if_neg hfree]
  | succ d ih =>
    intro s fuel hs hfuel hfree hall
    obtain ⟨f, rfl⟩ := Nat.exists_eq_succ_of_ne_zero
      (Nat.pos_iff_ne_zero.mp (Nat.lt_of_le_of_lt (Nat.zero_le _) hfuel))
    have hmem : s ∈ active := by
      have := hall 0 (Nat.succ_pos d)
      simpa [Nat.mod_eq_of_lt hs] using this
    have hstep : ∀ k, ((s + 1) % uint16Card + k) % uint16Card
        = (s + (k + 1)) % uint16Card := by
      intro k
      rw [Nat.mod_add_mod]
      congr 1
      omega
    rw [show probe active s (f + 1)
        = probe active ((s + 1) % uint16Card) f from by simp [probe, if_pos hmem]]
    have hres := ih ((s + 1) % uint16Card) f
      (Nat.mod_lt _ (by simp [uint16Card]))
      (Nat.lt_of_succ_lt_succ hfuel)
      (by rw [hstep d]; exact hfree)
      (by intro k hk; rw [hstep k]; exact hall (k + 1) (Nat.succ_lt_succ hk))
    rw [hres, hstep d]

/-- When some `uint16` value is free, the probe run with fuel
`uint16Card` finds the first free value after the cursor. -/
theorem probe_finds_least (active : Finset ℕ) (s : ℕ) (hs : s < uint16Card)
    (hfree : ∃ x, x < uint16Card ∧ x ∉ active) :
    ∃ d, (s + d) % uint16Card ∉ active ∧
      (∀ k < d, (s + k) % uint16Card ∈ active) ∧
      probe active s uint16Card = some ((s + d) % uint16Card) := by
  obtain ⟨x, hx, hxf⟩ := hfree
  have hwit : (s + (x + uint16Card - s) % uint16Card) % uint16Card = x := by
    unfold uint16Card at hx hs ⊢
    omega
  have hxf' : (s + (x + uint16Card - s) % uint16Card) % uint16Card ∉ active := by
    rw [hwit]; exact hxf
  have hP : ∃ d, (s + d) % uint16Card ∉ active := ⟨_, hxf'⟩
  have hdlt : Nat.find hP < uint16Card :=
    Nat.lt_of_le_of_lt (Nat.find_min' hP hxf')
      (Nat.mod_lt _ (by simp [uint16Card]))
  exact ⟨Nat.find hP, Nat.find_spec hP,
    fun k hk => not_not.mp (Nat.find_min hP hk),
    probe_eq_of_least (Nat.find hP) s uint16Card hs hdlt (Nat.find_spec hP)
      (fun k hk => not_not.mp (Nat.find_min hP hk))⟩

/-! ## Lemmas about `nextPeerID` and the registry operations -/

theorem nextPeerID_some_card {ids : txpoolIDs} {x : ℕ × ℕ}
    (h : nextPeerID ids = some x) : ids.activeIDs.card ≠ maxActiveIDs := by
  intro hc
  simp [nextPeerID, hc] at h

/-- A free `uint16` value exists when fewer than all of them are active. -/
theorem exists_free (ids : txpoolIDs) (_hb : ∀ a ∈ ids.activeIDs, a < uint16Card)
    (hc : ids.activeIDs.card < uint16Card) :
    ∃ x, x < uint16Card ∧ x ∉ ids.activeIDs := by
  by_contra hno
  push_neg at hno
  have hsub : Finset.range uint16Card ⊆ ids.activeIDs := fun x hx =>
    hno x (Finset.mem_range.mp hx)
  have := Finset.card_le_card hsub
  rw [Finset.card_range] at this
  omega

/-- When the active set is not at the panic threshold, `nextPeerID`
returns the first free ID found probing (with wraparound) from the
cursor. -/
theorem nextPeerID_total (ids : txpoolIDs) (h : InvBasic ids)
    (hc : ids.activeIDs.card ≠ maxActiveIDs) :
    ∃ d, (ids.nextID + d) % uint16Card ∉ ids.activeIDs ∧
      (∀ k < d, (ids.nextID + k) % uint16Card ∈ ids.activeIDs) ∧
      nextPeerID ids = some ((ids.nextID + d) % uint16Card,
        ((ids.nextID + d) % uint16Card + 1) % uint16Card) := by
  obtain ⟨-, -, -, -, -, hbound, hnext, hcard⟩ := h
  have hfree := exists_free ids hbound
    (by unfold maxActiveIDs at hcard hc; unfold uint16Card; omega)
  obtain ⟨d, hd1, hd2, hd3⟩ := probe_finds_least ids.activeIDs ids.nextID hnext hfree
  exact ⟨d, hd1, hd2, by simp [nextPeerID, hc, hd3]⟩

/-- Every ID `nextPeerID` hands out is free, non-zero and fits `uint16`,
and the cursor is left one past it. -/
theorem nextPeerID_some_spec {ids : txpoolIDs} {cur n : ℕ} (h : InvBasic ids)
    (hn : nextPeerID ids = some (cur, n)) :
    cur ∉ ids.activeIDs ∧ 1 ≤ cur ∧ cur < uint16Card ∧
      n = (cur + 1) % uint16Card := by
  obtain ⟨-, -, -, hzero, -, -, hnextid, -⟩ := h
  have hc := nextPeerID_some_card hn
  simp only [nextPeerID, if_neg hc] at hn
  cases hp : probe ids.activeIDs ids.nextID uint16Card with
  | none => rw [hp] at hn; simp at hn
  | some r =>
    rw [hp] at hn
    simp only [Option.some.injEq, Prod.mk.injEq] at hn
    obtain ⟨hcur, hn2⟩ := hn
    obtain ⟨hr1, hr2⟩ := probe_some hnextid hp
    rw [hcur] at hr1 hr2
    refine ⟨hr2, ?_, hr1, by rw [← hn2, hcur]⟩
    rcases Nat.eq_zero_or_pos cur with h0 | h1
    · exact absurd (h0 ▸ hzero) hr2
    · exact h1

theorem ReserveForPeer_none_of_nextPeerID_none (p : PeerId) {ids : txpoolIDs}
    (h : nextPeerID ids = none) : ReserveForPeer p ids = none := by
  unfold ReserveForPeer
  rw [h]

theorem nextPeerID_none_of_card {ids : txpoolIDs}
    (h : ids.activeIDs.card = maxActiveIDs) : nextPeerID ids = none := by
  unfold nextPeerID
  rw [if_pos h]

theorem ReserveForPeer_eq {ids : txpoolIDs} {cur n : ℕ} (p : PeerId)
    (hn : nextPeerID ids = some (cur, n)) :
    ReserveForPeer p ids = some
      { peerMap := insertMap p cur ids.peerMap
        nextID := n
        activeIDs := insert cur ids.activeIDs } := by
  simp [ReserveForPeer, hn]

/-- `ReserveForPeer` panics exactly when the active set (which includes
the reserved `0`) holds `maxActiveIDs = 65535` IDs — i.e. already when
65534 non-zero IDs are in use. -/
theorem ReserveForPeer_none_iff {ids : txpoolIDs} (p : PeerId)
    (h : InvBasic ids) :
    ReserveForPeer p ids = none ↔ ids.activeIDs.card = maxActiveIDs := by
  constructor
  · intro hn
    by_contra hc
    obtain ⟨d, -, -, hsome⟩ := nextPeerID_total ids h hc
    simp [ReserveForPeer, hsome] at hn
  · intro hc
    simp [ReserveForPeer, nextPeerID, hc]

theorem keys_eraseMap_not_mem (k : PeerId) (m : List (PeerId × ℕ)) :
    k ∉ mapKeys (eraseMap k m) := by
  intro h
  obtain ⟨e, he, hk⟩ := List.mem_map.mp h
  exact (mem_eraseMap.mp he).2 hk

theorem ReserveForPeer_invBasic {ids ids' : txpoolIDs} {p : PeerId}
    (h : InvBasic ids) (hr : ReserveForPeer p ids = some ids') :
    InvBasic ids' := by
  cases hn : nextPeerID ids with
  | none => simp [ReserveForPeer, hn] at hr
  | some cn =>
    obtain ⟨cur, n⟩ := cn
    obtain ⟨hfresh, hone, hlt, hn1⟩ := nextPeerID_some_spec h hn
    have hcardlt := nextPeerID_some_card hn
    obtain ⟨hkn, hvn, himg, hzero, hnz, hbound, hnid, hcard⟩ := h
    rw [ReserveForPeer_eq p hn] at hr
    injection hr with hr
    subst hr
    have hsubk : (mapKeys (eraseMap p ids.peerMap)).Sublist (mapKeys ids.peerMap) :=
      (eraseMap_sublist p _).map Prod.fst
    have hsubv : (mapVals (eraseMap p ids.peerMap)).Sublist (mapVals ids.peerMap) :=
      (eraseMap_sublist p _).map Prod.snd
    refine ⟨?_, ?_, ?_, ?_, ?_, ?_, ?_, ?_⟩
    · exact List.nodup_cons.mpr ⟨keys_eraseMap_not_mem p _, List.Nodup.sublist hsubk hkn⟩
    · refine List.nodup_cons.mpr ⟨?_, List.Nodup.sublist hsubv hvn⟩
      intro hmem
      exact hfresh (himg cur (hsubv.subset hmem))
    · intro v hv
      rcases List.mem_cons.mp hv with rfl | hv'
      · exact Finset.mem_insert_self _ _
      · exact Finset.mem_insert_of_mem (himg v (hsubv.subset hv'))
    · exact Finset.mem_insert_of_mem hzero
    · intro v hv
      rcases List.mem_cons.mp hv with rfl | hv'
      · omega
      · exact hnz v (hsubv.subset hv')
    · intro a ha
      rcases Finset.mem_insert.mp ha with rfl | ha'
      · exact hlt
      · exact hbound a ha'
    · rw [hn1]
      exact Nat.mod_lt _ (by simp [uint16Card])
    · rw [Finset.card_insert_of_not_mem hfresh]
      unfold maxActiveIDs at hcard hcardlt ⊢
      omega

theorem Reclaim_invBasic {ids : txpoolIDs} (p : PeerId) (h : InvBasic ids) :
    InvBasic (Reclaim p ids) := by
  obtain ⟨hkn, hvn, himg, hzero, hnz, hbound, hnid, hcard⟩ := h
  unfold Reclaim
  cases hl : lookupMap p ids.peerMap with
  | none => exact ⟨hkn, hvn, himg, hzero, hnz, hbound, hnid, hcard⟩
  | some rid =>
    have hmem : (p, rid) ∈ ids.peerMap := lookupMap_mem hl
    have hridnz : rid ≠ 0 := hnz rid (mem_mapVals.mpr ⟨p, hmem⟩)
    have hsubv : (mapVals (eraseMap p ids.peerMap)).Sublist (mapVals ids.peerMap) :=
      (eraseMap_sublist p _).map Prod.snd
    refine ⟨?_, ?_, ?_, ?_, ?_, ?_, hnid, ?_⟩
    · exact List.Nodup.sublist ((eraseMap_sublist p _).map Prod.fst) hkn
    · exact List.Nodup.sublist hsubv hvn
    · intro v hv
      obtain ⟨q, hq⟩ := mem_mapVals.mp hv
      have hq' := mem_eraseMap.mp hq
      refine Finset.mem_erase.mpr ⟨?_, himg v (hsubv.subset hv)⟩
      intro hveq
      subst hveq
      have := entry_eq_of_valsNodup hvn hq'.1 hmem rfl
      exact hq'.2 (congrArg Prod.fst this)
    · exact Finset.mem_erase.mpr ⟨Ne.symm hridnz, hzero⟩
    · exact fun v hv => hnz v (hsubv.subset hv)
    · exact fun a ha => hbound a (Finset.erase_subset _ _ ha)
    · exact le_trans (Finset.card_erase_le) hcard

theorem applyOp_invBasic {ids ids' : txpoolIDs} {o : Op}
    (h : InvBasic ids) (ha : applyOp ids o = some ids') : InvBasic ids' := by
  cases o with
  | reserve p => exact ReserveForPeer_invBasic h ha
  | reclaim p =>
    injection ha with ha
    exact ha ▸ Reclaim_invBasic p h

theorem mapImage_insertMap_of_none {p : PeerId} {cur : ℕ}
    {m : List (PeerId × ℕ)} (h : lookupMap p m = none) :
    mapImage (insertMap p cur m) = insert cur (mapImage m) := by
  rw [insertMap, eraseMap_eq_self_of_none h]
  simp [mapImage, mapVals]

theorem ReserveForPeer_invFull {ids ids' : txpoolIDs} {p : PeerId}
    (h : InvFull ids) (hp : lookupMap p ids.peerMap = none)
    (hr : ReserveForPeer p ids = some ids') : InvFull ids' := by
  obtain ⟨hb, heq⟩ := h
  refine ⟨ReserveForPeer_invBasic hb hr, ?_⟩
  cases hn : nextPeerID ids with
  | none => simp [ReserveForPeer, hn] at hr
  | some cn =>
    obtain ⟨cur, n⟩ := cn
    rw [ReserveForPeer_eq p hn] at hr
    injection hr with hr
    subst hr
    show insert cur ids.activeIDs = mapImage (insertMap p cur ids.peerMap) ∪ {0}
    rw [mapImage_insertMap_of_none hp, heq, Finset.insert_union]

theorem Reclaim_invFull {ids : txpoolIDs} (p : PeerId) (h : InvFull ids) :
    InvFull (Reclaim p ids) := by
  obtain ⟨hb, heq⟩ := h
  refine ⟨Reclaim_invBasic p hb, ?_⟩
  obtain ⟨hkn, hvn, himg, hzero, hnz, hbound, hnid, hcard⟩ := hb
  unfold Reclaim
  cases hl : lookupMap p ids.peerMap with
  | none => exact heq
  | some rid =>
    have hmem : (p, rid) ∈ ids.peerMap := lookupMap_mem hl
    have hridnz : rid ≠ 0 := hnz rid (mem_mapVals.mpr ⟨p, hmem⟩)
    have himg' : mapImage (eraseMap p ids.peerMap)
        = (mapImage ids.peerMap).erase rid := by
      ext v
      simp only [mapImage, List.mem_toFinset, Finset.mem_erase]
      constructor
      · intro hv
        obtain ⟨q, hq⟩ := mem_mapVals.mp hv
        have hq' := mem_eraseMap.mp hq
        refine ⟨?_, mem_mapVals.mpr ⟨q, hq'.1⟩⟩
        intro hveq
        subst hveq
        have := entry_eq_of_valsNodup hvn hq'.1 hmem rfl
        exact hq'.2 (congrArg Prod.fst this)
      · rintro ⟨hne, hv⟩
        obtain ⟨q, hq⟩ := mem_mapVals.mp hv
        refine mem_mapVals.mpr ⟨q, mem_eraseMap.mpr ⟨hq, ?_⟩⟩
        intro hqp
        have hq2 : (q, v) ∈ ids.peerMap := hq
        have := entry_eq_of_keysNodup hkn hq2 hmem hqp
        exact hne (congrArg Prod.snd this)
    show ids.activeIDs.erase rid = mapImage (eraseMap p ids.peerMap) ∪ {0}
    rw [heq, himg', Finset.erase_union_distrib]
    congr 1
    exact Finset.erase_eq_of_not_mem (by simp [hridnz])

/-! ## Lemmas about call sequences -/

theorem goodOps_invFull :
    ∀ (ops : List Op) (ids ids' : txpoolIDs), InvFull ids →
      goodOps ops ids = true → applyOps ops ids = some ids' → InvFull ids' := by
  intro ops
  induction ops with
  | nil =>
    intro ids ids' h _ ha
    injection ha with ha
    exact ha ▸ h
  | cons o rest ih =>
    intro ids ids' h hg ha
    cases o with
    | reserve p =>
      simp only [goodOps, Bool.and_eq_true, Option.isNone_iff_eq_none] at hg
      obtain ⟨hp, hg⟩ := hg
      simp only [applyOps, applyOp] at ha
      cases hr : ReserveForPeer p ids with
      | none => rw [hr] at ha; simp at ha
      | some mid =>
        rw [hr] at ha hg
        exact ih mid ids' (ReserveForPeer_invFull h hp hr) hg ha
    | reclaim p =>
      simp only [goodOps] at hg
      simp only [applyOps, applyOp] at ha
      exact ih _ ids' (Reclaim_invFull p h) hg ha

theorem applyOps_append :
    ∀ (l1 l2 : List Op) (ids : txpoolIDs),
      applyOps (l1 ++ l2) ids
        = match applyOps l1 ids with
          | none => none
          | some s => applyOps l2 s := by
  intro l1
  induction l1 with
  | nil => intro l2 ids; rfl
  | cons o rest ih =>
    intro l2 ids
    simp only [List.cons_append, applyOps]
    cases applyOp ids o with
    | none => rfl
    | some s => exact ih l2 s

/-- Reserving `n ≤ 65534` distinct peers (numbered `0,…,n-1`) on the fresh
registry succeeds and yields cursor `n + 1` and active set `{0,…,n}`. -/
theorem reserveChain :
    ∀ n ≤ 65534, ∃ m, applyOps ((List.range n).map Op.reserve) newTxpoolIDs
      = some ⟨m, n + 1, Finset.range (n + 1)⟩ := by
  intro n
  induction n with
  | zero =>
    intro _
    refine ⟨[], ?_⟩
    simp only [List.range_zero, List.map_nil, applyOps, Nat.zero_add,
      Finset.range_one]
    rfl
  | succ n ih =>
    intro hn
    obtain ⟨m, hm⟩ := ih (by omega)
    refine ⟨insertMap n (n + 1) m, ?_⟩
    rw [List.range_succ, List.map_append, applyOps_append, hm]
    have hmod : (n + 1 + 1) % uint16Card = n + 1 + 1 :=
      Nat.mod_eq_of_lt (by unfold uint16Card; omega)
    have hprobe : probe (Finset.range (n + 1)) (n + 1) uint16Card
        = some (n + 1) := by
      rw [show uint16Card = 65535 + 1 from rfl]
      simp [probe, Finset.mem_range]
    have hnp : nextPeerID ⟨m, n + 1, Finset.range (n + 1)⟩
        = some (n + 1, n + 1 + 1) := by
      have hne : ¬ (Finset.range (n + 1)).card = maxActiveIDs := by
        rw [Finset.card_range]
        unfold maxActiveIDs
        omega
      simp only [nextPeerID, hne, if_false, hprobe, hmod]
    simp only [List.map_cons, List.map_nil, applyOps, applyOp,
      ReserveForPeer_eq n hnp]
    rw [show Finset.range (n + 1 + 1) = insert (n + 1) (Finset.range (n + 1)) from
      Finset.range_succ]

/-- Along any call sequence from the fresh registry, every allocated ID
is in `1 .. 65535` and was not active at the moment of allocation. -/
theorem applyOpsTrace_alloc :
    ∀ (ops : List Op) (ids st : txpoolIDs) (evs : List (ℕ × Bool)),
      InvBasic ids → applyOpsTrace ops ids = some (st, evs) →
      ∀ e ∈ evs, 1 ≤ e.1 ∧ e.1 ≤ 65535 ∧ e.2 = false := by
  intro ops
  induction ops with
  | nil =>
    intro ids st evs _ ha e he
    injection ha with ha
    have h2 : [] = evs := (Prod.ext_iff.mp ha).2
    rw [← h2] at he
    simp at he
  | cons o rest ih =>
    intro ids st evs h ha e he
    cases o with
    | reserve p =>
      simp only [applyOpsTrace] at ha
      split at ha
      · simp at ha
      · rename_i cur n hn
        split at ha
        · simp at ha
        · rename_i st' evs' ht
          simp only [Option.some.injEq, Prod.mk.injEq] at ha
          obtain ⟨rfl, hevs⟩ := ha
          rw [← hevs] at he
          obtain ⟨hfresh, hone, hlt, -⟩ := nextPeerID_some_spec h hn
          have hmidInv : InvBasic
              { peerMap := insertMap p cur ids.peerMap
                nextID := n
                activeIDs := insert cur ids.activeIDs } :=
            ReserveForPeer_invBasic h (ReserveForPeer_eq p hn)
          rcases List.mem_cons.mp he with rfl | he'
          · refine ⟨hone, by unfold uint16Card at hlt; omega, ?_⟩
            simpa using hfresh
          · exact ih _ st' evs' hmidInv ht e he'
    | reclaim p =>
      simp only [applyOpsTrace] at ha
      exact ih _ st evs (Reclaim_invBasic p h) ha e he

/-! ## Claim C1 -/

/-- Claim C1, counterexample to the claim as stated: after reserving 65534
distinct peers from the fresh registry, the active set is `{0,…,65534}` —
ID `65535` is still free, so strictly fewer than 65535 non-zero IDs are
active — yet the very next `ReserveForPeer` hits the
`len(activeIDs) == maxActiveIDs` check (the set holds 65535 elements
*including the reserved 0*) and panics. -/
theorem reserve_panics_below_full_capacity :
    ∃ S : txpoolIDs,
      applyOps ((List.range 65534).map Op.reserve) newTxpoolIDs = some S ∧
      S.activeIDs = Finset.range 65535 ∧
      (65535 : ℕ) ∉ S.activeIDs ∧
      ReserveForPeer 99999 S = none := by
  obtain ⟨m, hm⟩ := reserveChain 65534 (by norm_num)
  refine ⟨⟨m, 65535, Finset.range 65535⟩, by simpa using hm, rfl, by simp, ?_⟩
  apply ReserveForPeer_none_of_nextPeerID_none
  apply nextPeerID_none_of_card
  show (Finset.range 65535).card = maxActiveIDs
  rw [Finset.card_range]
  rfl

/-- Claim C1 (amended): on any state satisfying the registry invariant,
`ReserveForPeer` aborts fatally if and only if the active-ID set — which
always includes the permanently reserved `0` — holds exactly
`maxActiveIDs = 65535` IDs, i.e. already when 65534 non-zero IDs are
simultaneously active; with at most 65533 non-zero IDs active it succeeds,
so the registry supports 65534 simultaneously active peers. -/
theorem claim_C1_reserve_fatal_iff (p : PeerId) (ids : txpoolIDs)
    (h : InvBasic ids) :
    ReserveForPeer p ids = none ↔ ids.activeIDs.card = maxActiveIDs :=
  ReserveForPeer_none_iff p h

/-- Claim C1, witness: on the fresh registry the reserve call does not
panic. -/
theorem claim_C1_witness : ¬ ReserveForPeer 1 newTxpoolIDs = none :=
  fun hn =>
    absurd ((claim_C1_reserve_fatal_iff 1 newTxpoolIDs (by decide)).mp hn)
      (by decide)

/-! ## Claim C2 -/

/-- Claim C2, counterexample to the claim as stated: reserve peers 1 and 2
(IDs 1 and 2), reclaim peer 1 (freeing ID 1). The smallest unused non-zero
ID is now 1, but the allocation cursor stands at 3, so the next
reservation allocates 3, not 1. -/
theorem reserve_skips_smallest_free :
    applyOps [Op.reserve 1, Op.reserve 2, Op.reclaim 1] newTxpoolIDs
      = some ⟨[(2, 2)], 3,
          Finset.erase (insert 2 (insert 1 ({0} : Finset ℕ))) 1⟩ ∧
    (1 : ℕ) ∉ Finset.erase (insert 2 (insert 1 ({0} : Finset ℕ))) 1 ∧
    ReserveForPeer 7 ⟨[(2, 2)], 3,
        Finset.erase (insert 2 (insert 1 ({0} : Finset ℕ))) 1⟩
      = some ⟨[(7, 3), (2, 2)], 4,
          insert 3 (Finset.erase (insert 2 (insert 1 ({0} : Finset ℕ))) 1)⟩ ∧
    lookupMap 7 [(7, 3), (2, 2)] = some 3 ∧ (3 : ℕ) ≠ 1 :=
  ⟨rfl, by decide, rfl, by decide, by decide⟩

/-- Claim C2 (amended): on any invariant state whose active set is below
the panic threshold, `ReserveForPeer` allocates the first PeerID not
currently active that is found by probing forward — with 16-bit
wraparound — from the persistent cursor `nextID` (not the minimum of the
unused non-zero IDs), records the peer-to-ID mapping, and marks that ID
active. -/
theorem claim_C2_reserve_first_free_from_cursor (p : PeerId)
    (ids : txpoolIDs) (h : InvBasic ids)
    (hc : ids.activeIDs.card ≠ maxActiveIDs) :
    ∃ id d,
      id = (ids.nextID + d) % uint16Card ∧
      id ∉ ids.activeIDs ∧
      (∀ k < d, (ids.nextID + k) % uint16Card ∈ ids.activeIDs) ∧
      ReserveForPeer p ids = some
        { peerMap := insertMap p id ids.peerMap
          nextID := (id + 1) % uint16Card
          activeIDs := insert id ids.activeIDs } ∧
      lookupMap p (insertMap p id ids.peerMap) = some id := by
  obtain ⟨d, h1, h2, h3⟩ := nextPeerID_total ids h hc
  exact ⟨_, d, rfl, h1, h2, ReserveForPeer_eq p h3, lookupMap_insertMap_self ..⟩

/-- Claim C2, witness: instantiated at the fresh registry. -/
theorem claim_C2_witness :
    ∃ id d,
      id = (newTxpoolIDs.nextID + d) % uint16Card ∧
      id ∉ newTxpoolIDs.activeIDs ∧
      (∀ k < d, (newTxpoolIDs.nextID + k) % uint16Card ∈ newTxpoolIDs.activeIDs) ∧
      ReserveForPeer 9 newTxpoolIDs = some
        { peerMap := insertMap 9 id newTxpoolIDs.peerMap
          nextID := (id + 1) % uint16Card
          activeIDs := insert id newTxpoolIDs.activeIDs } ∧
      lookupMap 9 (insertMap 9 id newTxpoolIDs.peerMap) = some id :=
  claim_C2_reserve_first_free_from_cursor 9 newTxpoolIDs (by decide) (by decide)

/-! ## Claim C3 -/

/-- Claim C3, counterexample to the claim as stated: the two-call sequence
that reserves the same peer twice leaves ID 1 active but outside the image
of the peer map, so the active set is not the image plus `{0}`. -/
theorem double_reserve_breaks_active_image :
    applyOps [Op.reserve 7, Op.reserve 7] newTxpoolIDs
      = some ⟨[(7, 2)], 3, insert 2 (insert 1 ({0} : Finset ℕ))⟩ ∧
    (1 : ℕ) ∈ insert 2 (insert 1 ({0} : Finset ℕ)) ∧
    (1 : ℕ) ∉ mapImage [(7, 2)] ∪ {0} :=
  ⟨rfl, by decide, by decide⟩

/-- Claim C3 (amended): for every sequence of reserve/reclaim calls from
the freshly constructed registry in which each reserve targets a peer with
no current mapping (the spec's at-most-once-per-connected-peer
precondition), the active-ID set equals the image of the peer-to-ID map
plus the permanently reserved `0`, and `0` is active in every reachable
state. -/
theorem claim_C3_active_eq_image (ops : List Op) (ids : txpoolIDs)
    (hg : goodOps ops newTxpoolIDs = true)
    (ha : applyOps ops newTxpoolIDs = some ids) :
    ids.activeIDs = mapImage ids.peerMap ∪ {0} ∧ (0 : ℕ) ∈ ids.activeIDs := by
  have h := goodOps_invFull ops newTxpoolIDs ids (by decide) hg ha
  exact ⟨h.2, h.1.2.2.2.1⟩

/-- Claim C3, witness: the one-reserve sequence. -/
theorem claim_C3_witness :
    (insert 1 ({0} : Finset ℕ)) = mapImage [(5, 1)] ∪ {0} ∧
      (0 : ℕ) ∈ insert 1 ({0} : Finset ℕ) :=
  claim_C3_active_eq_image [Op.reserve 5]
    ⟨[(5, 1)], 2, insert 1 ({0} : Finset ℕ)⟩ (by decide) rfl

/-! ## Claim C4 -/

/-- Claim C4: a frame of exactly `maxMsgSize` bytes is handed to the
unmarshaller and decodes successfully when it yields a well-formed
`TxMessage`, while any frame of `maxMsgSize + 1` bytes or more fails with
the size error — for every unmarshaller, i.e. before any content
inspection. -/
theorem claim_C4_decode_size_boundary
    (u : List ℕ → Except DecodeErr TxpoolMessage) (bz big : List ℕ)
    (tx : TxVote) :
    (bz.length = maxMsgSize → u bz = .ok (.txMessage tx) →
      decodeMsg u bz = .ok (.txMessage tx)) ∧
    (maxMsgSize + 1 ≤ big.length →
      decodeMsg u big = .error (.msgExceedsMaxSize big.length maxMsgSize)) := by
  constructor
  · intro hlen hok
    rw [decodeMsg, if_neg (by omega), hok]
  · intro hlen
    rw [decodeMsg, if_pos (by omega)]

/-- Claim C4, witness: an all-zero frame of exactly the maximum size, and
one a byte longer. -/
theorem claim_C4_witness :
    decodeMsg (fun _ => .ok (.txMessage 0)) (List.replicate maxMsgSize 0)
      = .ok (.txMessage 0) ∧
    decodeMsg (fun _ => .ok (.txMessage 0)) (List.replicate (maxMsgSize + 1) 0)
      = .error (.msgExceedsMaxSize
          (List.replicate (maxMsgSize + 1) (0 : ℕ)).length maxMsgSize) := by
  constructor
  · exact (claim_C4_decode_size_boundary _ _ [] 0).1 (List.length_replicate _ _) rfl
  · exact (claim_C4_decode_size_boundary _ [] _ 0).2 (by simp)

/-! ## Claim C5 -/

/-- Claim C5: when the peer reports height `h` and the entry is at height
`h + 2`, the iteration retries without sending and without advancing the
cursor; once the peer's reported height is at least `h + 1`, the height
guard passes and (absent echo-suppression and backpressure) the entry is
sent. -/
theorem claim_C5_height_guard (h : ℤ) :
    (∀ s k : Bool, loopStep ⟨some h, h + 2, s, k⟩ = .retryBehind ∧
      sends (loopStep ⟨some h, h + 2, s, k⟩) = false ∧
      advances (loopStep ⟨some h, h + 2, s, k⟩) = false) ∧
    (∀ p : ℤ, h + 1 ≤ p →
      loopStep ⟨some p, h + 2, false, true⟩ = .advanceSent ∧
      sends (loopStep ⟨some p, h + 2, false, true⟩) = true) := by
  constructor
  · intro s k
    have hstep : loopStep ⟨some h, h + 2, s, k⟩ = .retryBehind := by
      have hlt : h < h + 2 - 1 := by omega
      simp [loopStep, hlt]
    exact ⟨hstep, by rw [hstep]; rfl, by rw [hstep]; rfl⟩
  · intro p hp
    have hstep : loopStep ⟨some p, h + 2, false, true⟩ = .advanceSent := by
      have hnlt : ¬ p < h + 2 - 1 := by omega
      simp [loopStep, hnlt]
    exact ⟨hstep, by rw [hstep]; rfl⟩

/-- Claim C5, witness: peer at height 0, entry at height 2; then peer at
height 1. -/
theorem claim_C5_witness :
    loopStep ⟨some 0, (0 : ℤ) + 2, false, false⟩ = .retryBehind ∧
    loopStep ⟨some 1, (0 : ℤ) + 2, false, true⟩ = .advanceSent :=
  ⟨((claim_C5_height_guard 0).1 false false).1,
    ((claim_C5_height_guard 0).2 1 (by norm_num)).1⟩

/-! ## Claim C6 -/

/-- Claim C6: when the entry's sender set contains the peer's ID, no
iteration outcome transmits the entry; and whenever such an iteration
passes the height guard it advances the cursor past the entry without
sending. -/
theorem claim_C6_echo_suppression (i : LoopInput)
    (hs : i.peerIsSender = true) :
    sends (loopStep i) = false ∧
    (∀ h : ℤ, i.peerHeight = some h → i.entryHeight - 1 ≤ h →
      loopStep i = .advanceNoSend ∧ advances (loopStep i) = true) := by
  constructor
  · cases hph : i.peerHeight with
    | none => simp [loopStep, hph, sends]
    | some ht =>
      by_cases hlt : ht < i.entryHeight - 1
      · simp [loopStep, hph, hlt, sends]
      · simp [loopStep, hph, hlt, hs, sends]
  · intro h hph hge
    have hstep : loopStep i = .advanceNoSend := by
      have hnlt : ¬ h < i.entryHeight - 1 := by omega
      simp [loopStep, hph, hnlt, hs]
    exact ⟨hstep, by rw [hstep]; rfl⟩

/-- Claim C6, witness: an entry whose sender set contains the peer, with
the peer fully caught up. -/
theorem claim_C6_witness :
    sends (loopStep ⟨some 5, 5, true, true⟩) = false ∧
    loopStep ⟨some 5, 5, true, true⟩ = .advanceNoSend :=
  ⟨(claim_C6_echo_suppression ⟨some 5, 5, true, true⟩ rfl).1,
    ((claim_C6_echo_suppression ⟨some 5, 5, true, true⟩ rfl).2 5 rfl
      (by decide)).1⟩

/-! ## Claim C7 -/

/-- Claim C7: when decoding fails, `Receive` stops the sending peer with
the decode error as cause and submits nothing to the pool; when decoding
yields a `TxMessage`, it submits the transaction with the sender's
registered PeerID as provenance, does not stop the peer regardless of the
pool's verdict, and leaves the reactor state unchanged in both cases. -/
theorem claim_C7_receive (txR : TxpoolReactor)
    (u : List ℕ → Except DecodeErr TxpoolMessage)
    (checkTx : TxVote → ℕ → Bool) (src : PeerId) (bz : List ℕ) :
    (∀ e, decodeMsg u bz = .error e →
      Receive txR u checkTx src bz = (⟨some e, none⟩, txR)) ∧
    (∀ tx, decodeMsg u bz = .ok (.txMessage tx) →
      Receive txR u checkTx src bz
        = (⟨none, some (tx, GetForPeer src txR.ids,
            checkTx tx (GetForPeer src txR.ids))⟩, txR)) := by
  constructor
  · intro e he
    simp [Receive, he]
  · intro tx htx
    simp [Receive, htx]

/-- Claim C7, witness: an unmarshaller that rejects empty frames and
accepts others. -/
theorem claim_C7_witness :
    Receive ⟨true, newTxpoolIDs⟩
        (fun l => if l.length = 0 then .error (.unmarshalErr 7)
          else .ok (.txMessage 3))
        (fun _ _ => false) 4 []
      = (⟨some (.unmarshalErr 7), none⟩, ⟨true, newTxpoolIDs⟩) ∧
    Receive ⟨true, newTxpoolIDs⟩
        (fun l => if l.length = 0 then .error (.unmarshalErr 7)
          else .ok (.txMessage 3))
        (fun _ _ => false) 4 [9]
      = (⟨none, some (3, 0, false)⟩, ⟨true, newTxpoolIDs⟩) := by
  constructor
  · exact (claim_C7_receive _ _ _ _ _).1 (.unmarshalErr 7) rfl
  · exact (claim_C7_receive ⟨true, newTxpoolIDs⟩ _ (fun _ _ => false) 4 [9]).2
      3 rfl

/-! ## Claim C8 -/

/-- Claim C8: along every sequence of reserve/reclaim calls from the fresh
registry — in particular reserving N peers, reclaiming them all, and
reserving N more — every ID handed out lies in `1 .. 65535` and was not
active at the moment of its allocation. -/
theorem claim_C8_alloc_range_and_fresh (ops : List Op) (st : txpoolIDs)
    (evs : List (ℕ × Bool))
    (ha : applyOpsTrace ops newTxpoolIDs = some (st, evs)) :
    ∀ e ∈ evs, 1 ≤ e.1 ∧ e.1 ≤ 65535 ∧ e.2 = false :=
  applyOpsTrace_alloc ops newTxpoolIDs st evs (by decide) ha

/-- Claim C8, witness: reserve two peers, reclaim both, reserve two more;
the first allocation event is ID 1, not previously active. -/
theorem claim_C8_witness :
    1 ≤ ((1 : ℕ), false).1 ∧ ((1 : ℕ), false).1 ≤ 65535 ∧
      ((1 : ℕ), false).2 = false :=
  claim_C8_alloc_range_and_fresh
    [Op.reserve 1, Op.reserve 2, Op.reclaim 1, Op.reclaim 2,
      Op.reserve 3, Op.reserve 4]
    ⟨[(4, 4), (3, 3)], 5, insert 4 (insert 3 (Finset.erase
      (Finset.erase (insert 2 (insert 1 ({0} : Finset ℕ))) 1) 2))⟩
    [(1, false), (2, false), (3, false), (4, false)] rfl
    ((1 : ℕ), false) (by decide)

/-! ## Claim C9 -/

/-- Claim C9: reclaiming a peer with no mapping leaves the registry —
peer map, active set, and allocation cursor — unchanged; the cursor is
never touched by reclaim; and on any invariant state, reclaiming one peer
changes neither the mapping of any other peer nor the active status of
any other peer's ID. -/
theorem claim_C9_reclaim_frame (p : PeerId) (ids : txpoolIDs) :
    (lookupMap p ids.peerMap = none → Reclaim p ids = ids) ∧
    (Reclaim p ids).nextID = ids.nextID ∧
    (InvBasic ids → ∀ q, q ≠ p →
      lookupMap q (Reclaim p ids).peerMap = lookupMap q ids.peerMap ∧
      ∀ y, lookupMap q ids.peerMap = some y →
        (y ∈ (Reclaim p ids).activeIDs ↔ y ∈ ids.activeIDs)) := by
  refine ⟨?_, ?_, ?_⟩
  · intro h
    simp [Reclaim, h]
  · unfold Reclaim
    cases lookupMap p ids.peerMap <;> rfl
  · intro h q hq
    unfold Reclaim
    cases hl : lookupMap p ids.peerMap with
    | none => exact ⟨rfl, fun y _ => Iff.rfl⟩
    | some rid =>
      refine ⟨lookupMap_eraseMap_ne hq _, ?_⟩
      intro y hy
      have hmemq : (q, y) ∈ ids.peerMap := lookupMap_mem hy
      have hmemp : (p, rid) ∈ ids.peerMap := lookupMap_mem hl
      have hyrid : y ≠ rid := by
        intro hh
        subst hh
        have := entry_eq_of_valsNodup h.2.1 hmemq hmemp rfl
        exact hq (congrArg Prod.fst this)
      simp [Finset.mem_erase, hyrid]

/-- Claim C9, witness: reclaiming the unmapped peer 1 on a registry where
peer 2 holds ID 1 changes nothing. -/
theorem claim_C9_witness :
    Reclaim 1 (⟨[(2, 1)], 3, insert 1 ({0} : Finset ℕ)⟩ : txpoolIDs)
      = (⟨[(2, 1)], 3, insert 1 ({0} : Finset ℕ)⟩ : txpoolIDs) ∧
    lookupMap 2 (Reclaim 1
        (⟨[(2, 1)], 3, insert 1 ({0} : Finset ℕ)⟩ : txpoolIDs)).peerMap
      = lookupMap 2 [(2, 1)] := by
  refine ⟨(claim_C9_reclaim_frame 1 _).1 (by decide), ?_⟩
  exact ((claim_C9_reclaim_frame 1
    (⟨[(2, 1)], 3, insert 1 ({0} : Finset ℕ)⟩ : txpoolIDs)).2.2
    (by decide) 2 (by decide)).1

/-! ## Claim C10 -/

/-- Claim C10: with `config.Broadcast` unset, the broadcast routine
performs no iterations for any peer — it reads no pool entries and sends
nothing — while `AddPeer` still reserves and records a PeerID for the
connecting peer, and the effects of `Receive` do not depend on the flag. -/
theorem claim_C10_broadcast_disabled (ids : txpoolIDs)
    (iters : List LoopInput) (u : List ℕ → Except DecodeErr TxpoolMessage)
    (checkTx : TxVote → ℕ → Bool) (src q : PeerId) (bz : List ℕ) :
    broadcastTxRoutine ⟨false, ids⟩ iters = [] ∧
    (∀ txR', AddPeer ⟨false, ids⟩ q = some txR' →
      ∃ id, lookupMap q txR'.ids.peerMap = some id) ∧
    (Receive ⟨false, ids⟩ u checkTx src bz).1
      = (Receive ⟨true, ids⟩ u checkTx src bz).1 := by
  refine ⟨rfl, ?_, ?_⟩
  · intro txR' hr
    simp only [AddPeer] at hr
    cases hn : nextPeerID ids with
    | none =>
      rw [ReserveForPeer_none_of_nextPeerID_none q hn] at hr
      simp at hr
    | some cn =>
      obtain ⟨cur, n⟩ := cn
      rw [ReserveForPeer_eq q hn] at hr
      simp only [Option.map_some'] at hr
      injection hr with hr
      subst hr
      exact ⟨cur, lookupMap_insertMap_self ..⟩
  · unfold Receive
    cases decodeMsg u bz with
    | error e => rfl
    | ok m => cases m <;> rfl

/-- Claim C10, witness: the disabled routine performs nothing while peer 2
still receives ID 1. -/
theorem claim_C10_witness :
    broadcastTxRoutine ⟨false, newTxpoolIDs⟩ [⟨some 1, 1, false, true⟩] = [] ∧
    (∃ id, lookupMap 2
      ((⟨false, ⟨insertMap 2 1 [], 2, insert 1 ({0} : Finset ℕ)⟩⟩ :
        TxpoolReactor)).ids.peerMap = some id) := by
  constructor
  · exact (claim_C10_broadcast_disabled newTxpoolIDs [⟨some 1, 1, false, true⟩]
      (fun _ => .ok .unknownMsg) (fun _ _ => true) 1 2 []).1
  · exact (claim_C10_broadcast_disabled newTxpoolIDs [⟨some 1, 1, false, true⟩]
      (fun _ => .ok .unknownMsg) (fun _ _ => true) 1 2 []).2.1
      ⟨false, ⟨insertMap 2 1 [], 2, insert 1 ({0} : Finset ℕ)⟩⟩ rfl

end Txvotepool
